import Mathlib

/-!
Verification of the streaming transcoder in server.js (OpenAI -> NVIDIA NIM proxy).

Shallow embedding conventions:
- JavaScript strings are modelled as List Char (one element per Unicode scalar
  value; the source only measures lengths of ASCII text where this differs from
  UTF-16 code-unit counts).
- Network chunks arriving from the upstream (Node Buffers) are modelled as
  List Nat, one element per byte; Buffer.toString('utf8') is modelled by a
  UTF-8 decoder that substitutes U+FFFD for invalid or truncated sequences.
- JSON.parse / JSON.stringify are modelled by an executable parser and
  serializer over an explicit Json value type (numbers keep their lexeme since
  the program never computes with them).
- The stream handler's closure variables (buffer, isFirstChunk,
  accumulatedContent) become an explicit state record threaded through a
  per-chunk step function; res.write calls become a list of structured output
  events.
-/

namespace NimProxy

/-- Convenience: view a Lean string literal as the List Char model of a JS string. -/
def str (s : String) : List Char := s.data

/-- Newline character used by buffer.split in the data handler. -/
def nl : Char := Char.ofNat 10

/-- Apostrophe (U+0027), written via its code so it can appear inside phrase data. -/
def apos : Char := Char.ofNat 39

/-- Double-quote character. -/
def dq : Char := Char.ofNat 34

/-- Backslash character. -/
def bsl : Char := Char.ofNat 92

/-- Left curly brace, written via its code. -/
def lbrace : Char := Char.ofNat 123

/-- Right curly brace, written via its code. -/
def rbrace : Char := Char.ofNat 125

/-!
Line reframing: the data handler does
  buffer += chunk.toString(); const lines = buffer.split('\n'); buffer = lines.pop() || '';
splitLines returns exactly (all newline-terminated lines, the remainder after
the last newline), which is (lines, popped last element) of the JS split.
-/

/-- Model of buffer.split('\n') followed by lines.pop(): the first component is the
list of complete (newline-terminated) lines, the second is the trailing fragment
after the last newline (the new pending buffer). -/
def splitLines : List Char → List (List Char) × List Char
  | [] => ([], [])
  | c :: rest =>
    if c = nl then ([] :: (splitLines rest).1, (splitLines rest).2)
    else
      match splitLines rest with
      | ([], r) => ([], c :: r)
      | (l :: ls, r) => ((c :: l) :: ls, r)

/-- Complete lines of a byte-equal accumulated string. -/
def linesOf (s : List Char) : List (List Char) := (splitLines s).1

/-!
JSON model. JSON.parse and JSON.stringify are JavaScript builtins used by the
data handler; they are modelled by an executable parser/serializer over an
explicit value type. Numbers keep their source lexeme (the program never does
arithmetic on decoded numbers, so no floating-point semantics are needed).
-/

/-- JSON values as produced by JSON.parse. Object fields are kept in first
occurrence order with last-value-wins semantics for duplicate keys, matching
JSON.parse. -/
inductive Json where
  | null
  | bool (b : Bool)
  | num (lexeme : List Char)
  | str (s : List Char)
  | arr (items : List Json)
  | obj (fields : List (List Char × Json))
deriving Repr

/-- JSON whitespace accepted by JSON.parse (space, tab, LF, CR). -/
def jsonWs (c : Char) : Bool := c = ' ' || c = Char.ofNat 9 || c = nl || c = Char.ofNat 13

/-- Skip insignificant whitespace. -/
def skipWs (s : List Char) : List Char := s.dropWhile jsonWs

/-- Value of a hex digit, if any. -/
def hexVal (c : Char) : Option Nat :=
  if '0' ≤ c ∧ c ≤ '9' then some (c.toNat - 48)
  else if 'a' ≤ c ∧ c ≤ 'f' then some (c.toNat - 87)
  else if 'A' ≤ c ∧ c ≤ 'F' then some (c.toNat - 55)
  else none

/-- Single-character JSON string escapes. -/
def escMap (c : Char) : Option Char :=
  if c = dq then some dq
  else if c = bsl then some bsl
  else if c = '/' then some '/'
  else if c = 'b' then some (Char.ofNat 8)
  else if c = 'f' then some (Char.ofNat 12)
  else if c = 'n' then some nl
  else if c = 'r' then some (Char.ofNat 13)
  else if c = 't' then some (Char.ofNat 9)
  else none

/-- Parse the body of a JSON string after the opening quote; returns the decoded
characters together with the input remaining after the closing quote. -/
def parseStringBody : List Char → Option (List Char × List Char)
  | [] => none
  | c :: rest =>
    if c = dq then some ([], rest)
    else if c = bsl then
      match rest with
      | [] => none
      | e :: rest2 =>
        if e = 'u' then
          match rest2 with
          | h1 :: h2 :: h3 :: h4 :: rest3 =>
            match hexVal h1, hexVal h2, hexVal h3, hexVal h4 with
            | some a, some b, some c2, some d =>
              (fun p => (Char.ofNat (((a * 16 + b) * 16 + c2) * 16 + d) :: p.1, p.2)) <$>
                parseStringBody rest3
            | _, _, _, _ => none
          | _ => none
        else
          match escMap e with
          | some ec => (fun p => (ec :: p.1, p.2)) <$> parseStringBody rest2
          | none => none
    else if c.toNat < 32 then none
    else (fun p => (c :: p.1, p.2)) <$> parseStringBody rest

/-- Consume one or more decimal digits. -/
def digits1 (s : List Char) : Option (List Char) :=
  let d := s.takeWhile Char.isDigit
  if d = [] then none else some (s.drop d.length)

/-- Characters that may appear in a JSON number lexeme. -/
def numChar (c : Char) : Bool :=
  c.isDigit || c = '-' || c = '+' || c = '.' || c = 'e' || c = 'E'

/-- Check an optional fraction part. -/
def chompFrac : List Char → Option (List Char)
  | '.' :: r => digits1 r
  | s => some s

/-- Check an optional exponent part. -/
def chompExp : List Char → Option (List Char)
  | [] => some []
  | c :: r =>
    if c = 'e' || c = 'E' then
      match r with
      | d :: r2 => if d = '+' || d = '-' then digits1 r2 else digits1 (d :: r2)
      | [] => none
    else some (c :: r)

/-- Validate a whole number lexeme against the JSON grammar. -/
def validNumLex (lex : List Char) : Bool :=
  let s1 := match lex with
            | c :: r => if c = '-' then r else lex
            | [] => []
  match s1 with
  | [] => false
  | c :: r =>
    if c.isDigit = false then false
    else
      let s2 := if c = '0' then r else r.dropWhile Char.isDigit
      match chompFrac s2 with
      | none => false
      | some s3 =>
        match chompExp s3 with
        | none => false
        | some s4 => s4 = []

/-- Parse a JSON number from the head of the input. -/
def parseNumber (s : List Char) : Option (List Char × List Char) :=
  let lex := s.takeWhile numChar
  if lex = [] then none
  else if validNumLex lex then some (lex, s.drop lex.length) else none

/-- Set an object's field: replace the value of an existing key in place, else
append (JavaScript property assignment, also used for JSON.parse duplicates). -/
def insertField : List (List Char × Json) → List Char → Json → List (List Char × Json)
  | [], k, v => [(k, v)]
  | (k', v') :: rest, k, v =>
    if k' = k then (k', v) :: rest else (k', v') :: insertField rest k v

/-- Read an object's field (first match; parsed objects have unique keys). -/
def lookupField : List (List Char × Json) → List Char → Option Json
  | [], _ => none
  | (k', v) :: rest, k => if k' = k then some v else lookupField rest k

/-- Delete an object's field (the JavaScript delete operator). -/
def removeField : List (List Char × Json) → List Char → List (List Char × Json)
  | [], _ => []
  | (k', v) :: rest, k =>
    if k' = k then removeField rest k else (k', v) :: removeField rest k

mutual

/-- Parse one JSON value; fuel bounds the recursion depth and is chosen large
enough at the top entry point that it never runs out on any input. -/
def parseValue : Nat → List Char → Option (Json × List Char)
  | 0, _ => none
  | fuel + 1, s =>
    match skipWs s with
    | 'n' :: 'u' :: 'l' :: 'l' :: r => some (.null, r)
    | 't' :: 'r' :: 'u' :: 'e' :: r => some (.bool true, r)
    | 'f' :: 'a' :: 'l' :: 's' :: 'e' :: r => some (.bool false, r)
    | c :: r =>
      if c = dq then
        match parseStringBody r with
        | some (cs, rest) => some (.str cs, rest)
        | none => none
      else if c = lbrace then parseObjBody fuel r
      else if c = '[' then parseArrBody fuel r
      else
        match parseNumber (c :: r) with
        | some (lex, rest) => some (.num lex, rest)
        | none => none
    | [] => none

/-- Parse an object body after the opening brace. -/
def parseObjBody : Nat → List Char → Option (Json × List Char)
  | 0, _ => none
  | fuel + 1, s =>
    match skipWs s with
    | c :: r => if c = rbrace then some (.obj [], r) else parseMembers fuel (c :: r) []
    | [] => none

/-- Parse one or more key:value members, then the closing brace. -/
def parseMembers : Nat → List Char → List (List Char × Json) → Option (Json × List Char)
  | 0, _, _ => none
  | fuel + 1, s, acc =>
    match skipWs s with
    | c :: r =>
      if c = dq then
        match parseStringBody r with
        | some (key, rest) =>
          match skipWs rest with
          | ':' :: rest2 =>
            match parseValue fuel rest2 with
            | some (v, rest3) =>
              let acc' := insertField acc key v
              match skipWs rest3 with
              | ',' :: rest4 => parseMembers fuel rest4 acc'
              | c2 :: rest4 => if c2 = rbrace then some (.obj acc', rest4) else none
              | [] => none
            | none => none
          | _ => none
        | none => none
      else none
    | [] => none

/-- Parse an array body after the opening bracket. -/
def parseArrBody : Nat → List Char → Option (Json × List Char)
  | 0, _ => none
  | fuel + 1, s =>
    match skipWs s with
    | ']' :: r => some (.arr [], r)
    | s' => parseItems fuel s' []

/-- Parse one or more array items, then the closing bracket. -/
def parseItems : Nat → List Char → List Json → Option (Json × List Char)
  | 0, _, _ => none
  | fuel + 1, s, acc =>
    match parseValue fuel s with
    | some (v, rest) =>
      match skipWs rest with
      | ',' :: rest2 => parseItems fuel rest2 (v :: acc)
      | ']' :: rest2 => some (.arr (v :: acc).reverse, rest2)
      | _ => none
    | none => none

end

/-- Model of JSON.parse: parse a complete value, requiring only whitespace to
remain. Returns none where JSON.parse would throw. -/
def jsonParse (s : List Char) : Option Json :=
  match parseValue (2 * s.length + 8) s with
  | some (v, rest) => if skipWs rest = [] then some v else none
  | none => none

/-- Lowercase hex digit. -/
def hexDigitChar (n : Nat) : Char :=
  if n < 10 then Char.ofNat (48 + n) else Char.ofNat (87 + n)

/-- Escape one character as JSON.stringify does. -/
def escapeChar (c : Char) : List Char :=
  if c = dq then [bsl, dq]
  else if c = bsl then [bsl, bsl]
  else if c = nl then [bsl, 'n']
  else if c = Char.ofNat 13 then [bsl, 'r']
  else if c = Char.ofNat 9 then [bsl, 't']
  else if c = Char.ofNat 8 then [bsl, 'b']
  else if c = Char.ofNat 12 then [bsl, 'f']
  else if c.toNat < 32 then
    [bsl, 'u', '0', '0', hexDigitChar (c.toNat / 16), hexDigitChar (c.toNat % 16)]
  else [c]

/-- Escape a whole string body. -/
def escapeString (s : List Char) : List Char :=
  s.foldr (fun c acc => escapeChar c ++ acc) []

/-- Serialize a string with surrounding quotes. -/
def quoteString (s : List Char) : List Char := dq :: escapeString s ++ [dq]

mutual

/-- Model of JSON.stringify (compact form, no spacing), as used for messages
and for re-emitting rewritten stream payloads. -/
def stringifyJson : Json → List Char
  | .null => str "null"
  | .bool true => str "true"
  | .bool false => str "false"
  | .num lex => lex
  | .str s => quoteString s
  | .arr items => '[' :: stringifyItems items ++ [']']
  | .obj fields => lbrace :: stringifyFields fields ++ [rbrace]

/-- Serialize array items, comma separated. -/
def stringifyItems : List Json → List Char
  | [] => []
  | [j] => stringifyJson j
  | j :: rest => stringifyJson j ++ ',' :: stringifyItems rest

/-- Serialize object fields, comma separated. -/
def stringifyFields : List (List Char × Json) → List Char
  | [] => []
  | [(k, v)] => quoteString k ++ ':' :: stringifyJson v
  | (k, v) :: rest => quoteString k ++ ':' :: stringifyJson v ++ ',' :: stringifyFields rest

end

/-!
Content Normalizer (cleanResponse). Every entry of UNWANTED_PHRASES in the
source has the shape /^Phrase[class]?\s+/i where the optional punctuation class
is [.,!] for most patterns and [.:,] for the two starting with Here is. A
pattern is therefore modelled by its phrase plus its punctuation characters,
and one matcher implements the shared shape: case-insensitive anchored phrase,
optional one punctuation character, then one or more whitespace characters,
with String.prototype.replace removing the matched prefix.
-/

/-- Characters matched by the regex class \s (and trimmed by trimStart). -/
def jsSpace (c : Char) : Bool :=
  let n := c.toNat
  (9 ≤ n && n ≤ 13) || n = 32 || n = 160 || n = 0x1680 ||
  (0x2000 ≤ n && n ≤ 0x200a) || n = 0x2028 || n = 0x2029 ||
  n = 0x202f || n = 0x205f || n = 0x3000 || n = 0xfeff

/-- Regex pattern of the catalog: anchored phrase, optional punctuation class. -/
structure Pattern where
  phrase : List Char
  puncts : List Char
deriving DecidableEq, Repr

/-- Punctuation class [.,!] used by most patterns. -/
def punctsCommon : List Char := ['.', ',', '!']

/-- Punctuation class [.:,] used by the two Here is patterns. -/
def punctsColon : List Char := ['.', ':', ',']

/-- Case-insensitive anchored phrase match; returns the input after the phrase. -/
def stripPrefixCI : List Char → List Char → Option (List Char)
  | [], s => some s
  | _ :: _, [] => none
  | p :: ps, c :: cs => if p.toLower = c.toLower then stripPrefixCI ps cs else none

/-- Match /^phrase[puncts]?\s+/i at the start of s; some rest on success, where
rest is s with the whole match removed (replace with the empty string). -/
def matchPattern (pat : Pattern) (s : List Char) : Option (List Char) :=
  match stripPrefixCI pat.phrase s with
  | none => none
  | some r =>
    match r with
    | [] => none
    | c :: rest =>
      if pat.puncts.contains c then
        match rest with
        | [] => none
        | d :: _ => if jsSpace d then some (rest.dropWhile jsSpace) else none
      else if jsSpace c then some ((c :: rest).dropWhile jsSpace)
      else none

/-- Phrase catalog of UNWANTED_PHRASES, in source order. -/
def UNWANTED_PHRASES : List Pattern :=
  [⟨str "Of course", punctsCommon⟩,
   ⟨str "Here is the response", punctsColon⟩,
   ⟨str "Here is", punctsColon⟩,
   ⟨str "Sure", punctsCommon⟩,
   ⟨str "Certainly", punctsCommon⟩,
   ⟨str "I understand", punctsCommon⟩,
   ⟨str "I" ++ [apos] ++ str "ll help", punctsCommon⟩,
   ⟨str "Let me", punctsCommon⟩,
   ⟨str "I will", punctsCommon⟩,
   ⟨str "Okay", punctsCommon⟩,
   ⟨str "Alright", punctsCommon⟩,
   ⟨str "Got it", punctsCommon⟩,
   ⟨str "Understood", punctsCommon⟩,
   ⟨str "Here" ++ [apos] ++ str "s", punctsCommon⟩,
   ⟨str "Here are", punctsCommon⟩]

/-- One cleaned.replace(pattern, '') step: strip the match if any, else leave
the string unchanged. -/
def replacePattern (pat : Pattern) (s : List Char) : List Char :=
  (matchPattern pat s).getD s

/-- Run the for-of loop over a list of patterns (in order). -/
def applyList (ps : List Pattern) (s : List Char) : List Char :=
  ps.foldl (fun cur p => replacePattern p cur) s

/-- Model of cleaned.trimStart(). -/
def trimStart (s : List Char) : List Char := s.dropWhile jsSpace

/-- One iteration of the do-while body: all patterns in order, then trimStart. -/
def cleanIter (s : List Char) : List Char := trimStart (applyList UNWANTED_PHRASES s)

theorem length_dropWhile_le {α : Type} (q : α → Bool) (l : List α) :
    (l.dropWhile q).length ≤ l.length := by
  induction l with
  | nil => simp
  | cons c cs ih =>
    rw [List.dropWhile_cons]
    split
    · exact le_trans ih (by simp)
    · simp

theorem stripPrefixCI_length_le (p : List Char) :
    ∀ s r, stripPrefixCI p s = some r → r.length ≤ s.length := by
  induction p with
  | nil => intro s r h; simp [stripPrefixCI] at h; simp [h]
  | cons x xs ih =>
    intro s r h
    cases s with
    | nil => simp [stripPrefixCI] at h
    | cons c cs =>
      simp only [stripPrefixCI] at h
      split at h
      · exact le_trans (ih cs r h) (by simp)
      · exact absurd h (by simp)

theorem matchPattern_length_lt (p : Pattern) (s r : List Char)
    (h : matchPattern p s = some r) : r.length < s.length := by
  unfold matchPattern at h
  rcases hs : stripPrefixCI p.phrase s with _ | r0
  · rw [hs] at h; exact absurd h (by simp)
  · rw [hs] at h
    have h0 : r0.length ≤ s.length := stripPrefixCI_length_le p.phrase s r0 hs
    cases r0 with
    | nil => simp at h
    | cons c rest =>
      simp only at h
      split at h
      · cases rest with
        | nil => simp at h
        | cons d rest2 =>
          simp only at h
          split at h
          · have hd := length_dropWhile_le jsSpace (d :: rest2)
            simp only [Option.some.injEq] at h
            subst h
            simp only [List.length_cons] at h0 hd ⊢
            omega
          · exact absurd h (by simp)
      · split at h
        · simp only [Option.some.injEq] at h
          subst h
          have := length_dropWhile_le jsSpace (c :: rest)
          rename_i hpunct hsp
          rw [List.dropWhile_cons, if_pos hsp] at this ⊢
          have := length_dropWhile_le jsSpace rest
          simp only [List.length_cons] at h0
          omega
        · exact absurd h (by simp)

theorem replacePattern_length_le (p : Pattern) (s : List Char) :
    (replacePattern p s).length ≤ s.length := by
  unfold replacePattern
  rcases h : matchPattern p s with _ | r
  · simp
  · simpa using le_of_lt (matchPattern_length_lt p s r h)

theorem applyList_length_le (ps : List Pattern) :
    ∀ s, (applyList ps s).length ≤ s.length := by
  induction ps with
  | nil => intro s; simp [applyList]
  | cons p rest ih =>
    intro s
    have h1 : (applyList rest (replacePattern p s)).length ≤ (replacePattern p s).length := ih _
    have h2 := replacePattern_length_le p s
    simpa [applyList] using le_trans h1 h2

theorem cleanIter_length_le (s : List Char) : (cleanIter s).length ≤ s.length :=
  le_trans (length_dropWhile_le jsSpace (applyList UNWANTED_PHRASES s))
    (applyList_length_le UNWANTED_PHRASES s)

/-- Model of the do-while loop of cleanResponse: run the body, repeat while the
length changed and the string is nonempty. Total by the length measure. -/
def cleanLoopGo (s : List Char) : List Char :=
  if h : (cleanIter s).length ≠ s.length ∧ 0 < (cleanIter s).length then
    cleanLoopGo (cleanIter s)
  else cleanIter s
termination_by s.length
decreasing_by
  exact lt_of_le_of_ne (cleanIter_length_le s) h.1

/-- Fuel-indexed variant of the do-while loop; none models not finishing within
the given number of iterations. The loop shortens the string on every repeat,
so length + 1 iterations always suffice (proved below), and the fuelled loop
agrees everywhere with cleanLoopGo. -/
def cleanLoopFuel : Nat → List Char → Option (List Char)
  | 0, _ => none
  | fuel + 1, s =>
    if (cleanIter s).length ≠ s.length ∧ 0 < (cleanIter s).length then
      cleanLoopFuel fuel (cleanIter s)
    else some (cleanIter s)

/-- Model of cleanResponse: falsy (empty) input is returned unchanged, otherwise
the do-while strip loop runs. Stated with the fuelled loop (at its proven
sufficient fuel) so that the model computes by kernel reduction; the getD
default is unreachable. -/
def cleanResponse (text : List Char) : List Char :=
  if text = [] then text else (cleanLoopFuel (text.length + 1) text).getD text

/-!
Streaming handler. The closure variables buffer, isFirstChunk and
accumulatedContent of the stream-mode branch of POST /v1/chat/completions are
an explicit state; each res.write becomes one OutEvent.
-/

/-- Policy flag SHOW_REASONING from the source (const, false). -/
def SHOW_REASONING : Bool := false

/-- Per-stream normalizer state: the closure variables isFirstChunk and
accumulatedContent. -/
structure NormState where
  isFirstChunk : Bool
  accumulatedContent : List Char
deriving DecidableEq, Repr

/-- Everything the handler writes to the client sink: the terminal sentinel
(res.write of data colon [DONE]), a re-serialized JSON payload (res.write of
data colon JSON.stringify(data)), or a raw line forwarded on parse failure. -/
inductive OutEvent where
  | done
  | event (data : Json)
  | raw (line : List Char)
deriving Repr

/-- Key strings of the payloads the handler touches. -/
def choicesKey : List Char := str "choices"

/-- Delta key. -/
def deltaKey : List Char := str "delta"

/-- Content key. -/
def contentKey : List Char := str "content"

/-- Reasoning side-channel key. -/
def reasoningKey : List Char := str "reasoning_content"

/-- JavaScript property read obj.k (undefined on non-objects). -/
def getJsonField (j : Json) (k : List Char) : Option Json :=
  match j with
  | .obj fs => lookupField fs k
  | _ => none

/-- JavaScript property write obj.k = v (no-op on non-objects). -/
def setField (j : Json) (k : List Char) (v : Json) : Json :=
  match j with
  | .obj fs => .obj (insertField fs k v)
  | _ => j

/-- JavaScript delete obj.k (no-op on non-objects). -/
def delField (j : Json) (k : List Char) : Json :=
  match j with
  | .obj fs => .obj (removeField fs k)
  | _ => j

/-- Optional-chain read data.choices?.[0]?.delta: undefined (none) whenever the
choices field is missing or not an array, the array is empty, or the first
choice has no delta property. -/
def getDelta (data : Json) : Option Json :=
  match getJsonField data choicesKey with
  | some (.arr (c0 :: _)) => getJsonField c0 deltaKey
  | _ => none

/-- Rewrite the delta object in place inside data (the JS mutations act through
the delta reference obtained by data.choices?.[0]?.delta); identity when the
path is absent, which cannot happen where it is used. -/
def updateDelta (data : Json) (f : Json → Json) : Json :=
  match getJsonField data choicesKey with
  | some (.arr (c0 :: cs)) =>
    match getJsonField c0 deltaKey with
    | some d => setField data choicesKey (.arr (setField c0 deltaKey (f d) :: cs))
    | none => data
  | _ => data

/-- Truthiness of a number lexeme: some nonzero mantissa digit (extreme
exponents that underflow to zero in IEEE arithmetic are not modelled; no number
ever reaches this test in the proofs below). -/
def numTruthy (lex : List Char) : Bool :=
  (lex.takeWhile (fun c => c ≠ 'e' ∧ c ≠ 'E')).any (fun c => c.isDigit && c ≠ '0')

/-- JavaScript truthiness of a decoded JSON value. -/
def jsTruthy : Json → Bool
  | .null => false
  | .bool b => b
  | .str s => !s.isEmpty
  | .num lex => numTruthy lex
  | .arr _ => true
  | .obj _ => true

mutual

/-- JavaScript string coercion of a decoded JSON value, as applied by the +=
that appends delta.content to accumulatedContent. -/
def jsToString : Json → List Char
  | .null => str "null"
  | .bool true => str "true"
  | .bool false => str "false"
  | .num lex => lex
  | .str s => s
  | .arr items => jsToStringItems items
  | .obj _ => str "[object Object]"

/-- Array toString: comma-joined elements, null rendered empty. -/
def jsToStringItems : List Json → List Char
  | [] => []
  | [.null] => []
  | [j] => jsToString j
  | .null :: rest => ',' :: jsToStringItems rest
  | j :: rest => jsToString j ++ ',' :: jsToStringItems rest

end

/-- Event prefix checked by line.startsWith. -/
def dataMark : List Char := str "data: "

/-- Termination sentinel checked by line.includes. -/
def doneMark : List Char := str "[DONE]"

/-- Model of line.includes(pat). -/
def containsSub (pat : List Char) : List Char → Bool
  | [] => pat.isPrefixOf []
  | c :: rest => pat.isPrefixOf (c :: rest) || containsSub pat rest

/-- Line that triggers the terminal branch: has the event prefix and contains
the sentinel. -/
def isStopLine (l : List Char) : Bool := dataMark.isPrefixOf l && containsSub doneMark l

/-- Process one complete data line (the try/catch body): JSON.parse the part
after the prefix, forward the raw line on failure, otherwise run the
accumulate-then-clean normalizer logic on delta.content. -/
def processLine (n : NormState) (line : List Char) : NormState × List OutEvent :=
  match jsonParse (line.drop 6) with
  | none => (n, [OutEvent.raw line])
  | some data =>
    match getDelta data with
    | none => (n, [])
    | some delta =>
      match getJsonField delta contentKey with
      | none => (n, [])
      | some contentJson =>
        if jsTruthy contentJson then
          if n.isFirstChunk = true ∨ n.accumulatedContent.length < 100 then
            let acc := n.accumulatedContent ++ jsToString contentJson
            if 50 ≤ acc.length then
              (⟨false, []⟩,
               if cleanResponse acc ≠ [] then
                 [OutEvent.event (updateDelta data (fun d =>
                   setField d contentKey (.str (cleanResponse acc))))]
               else [])
            else (⟨n.isFirstChunk, acc⟩, [])
          else
            (n, [OutEvent.event (updateDelta data (fun d =>
              if SHOW_REASONING then d else delField d reasoningKey))])
        else (n, [])

/-- Process the complete lines found in one chunk, in order: skip lines without
the event prefix, stop at the sentinel (the return statement exits the data
callback, so the rest of this chunk's lines are dropped), otherwise process. -/
def processLines (n : NormState) : List (List Char) → NormState × List OutEvent
  | [] => (n, [])
  | l :: ls =>
    if dataMark.isPrefixOf l then
      if containsSub doneMark l then (n, [OutEvent.done])
      else
        let p := processLine n l
        let q := processLines p.1 ls
        (q.1, p.2 ++ q.2)
    else processLines n ls

/-- Full per-stream state: the pending line buffer plus the normalizer state. -/
structure StreamState where
  buffer : List Char
  norm : NormState
deriving Repr

/-- One invocation of the data callback on a decoded chunk. -/
def processChunk (s : StreamState) (chunk : List Char) : StreamState × List OutEvent :=
  let p := splitLines (s.buffer ++ chunk)
  let q := processLines s.norm p.1
  (⟨p.2, q.1⟩, q.2)

/-- Fold the data callback over a sequence of decoded chunks. -/
def runChunks (s : StreamState) : List (List Char) → StreamState × List OutEvent
  | [] => (s, [])
  | c :: cs =>
    let p := processChunk s c
    let q := runChunks p.1 cs
    (q.1, p.2 ++ q.2)

/-- Payload written by the end handler when leftover accumulated content is
flushed. -/
def flushData (cleaned : List Char) : Json :=
  .obj [(choicesKey, .arr [.obj [(deltaKey, .obj [(contentKey, .str cleaned)])]])]

/-- The end handler: clean and flush any remaining accumulated content. -/
def endFlush (n : NormState) : List OutEvent :=
  if n.accumulatedContent ≠ [] then
    if cleanResponse n.accumulatedContent ≠ [] then
      [OutEvent.event (flushData (cleanResponse n.accumulatedContent))]
    else []
  else []

/-- Initial state of a stream: empty buffer, first chunk pending, empty
accumulator. -/
def initState : StreamState := ⟨[], ⟨true, []⟩⟩

/-- Everything the handler writes for a full stream delivered as the given
decoded chunks (data events in order, then the end flush). -/
def runStream (cs : List (List Char)) : List OutEvent :=
  let p := runChunks initState cs
  p.2 ++ endFlush p.1.norm

/-!
Transport layer. Chunks reach the data handler as Node Buffers (bytes) and are
decoded per chunk by chunk.toString(), i.e. UTF-8 decoding in which invalid or
truncated sequences become U+FFFD replacement characters.
-/

/-- Replacement character U+FFFD. -/
def replChar : Char := Char.ofNat 0xfffd

/-- Continuation byte test. -/
def isCont (b : Nat) : Bool := 0x80 ≤ b && b ≤ 0xbf

/-- Allowed second byte of a three-byte sequence (tightened for E0/ED). -/
def cont3 (b c : Nat) : Bool :=
  if b = 0xe0 then 0xa0 ≤ c && c ≤ 0xbf
  else if b = 0xed then 0x80 ≤ c && c ≤ 0x9f
  else isCont c

/-- Allowed second byte of a four-byte sequence (tightened for F0/F4). -/
def cont4 (b c : Nat) : Bool :=
  if b = 0xf0 then 0x90 ≤ c && c ≤ 0xbf
  else if b = 0xf4 then 0x80 ≤ c && c ≤ 0x8f
  else isCont c

/-- Model of Buffer.toString('utf8'): standard UTF-8 decoding with U+FFFD
substituted for each invalid or truncated sequence. -/
def utf8Decode : List Nat → List Char
  | [] => []
  | b :: rest =>
    if b ≤ 0x7f then Char.ofNat b :: utf8Decode rest
    else if 0xc2 ≤ b ∧ b ≤ 0xdf then
      match rest with
      | c :: rest2 =>
        if isCont c then Char.ofNat ((b % 32) * 64 + c % 64) :: utf8Decode rest2
        else replChar :: utf8Decode (c :: rest2)
      | [] => [replChar]
    else if 0xe0 ≤ b ∧ b ≤ 0xef then
      match rest with
      | c1 :: c2 :: rest2 =>
        if cont3 b c1 then
          if isCont c2 then
            Char.ofNat ((b % 16) * 4096 + (c1 % 64) * 64 + c2 % 64) :: utf8Decode rest2
          else replChar :: utf8Decode (c2 :: rest2)
        else replChar :: utf8Decode (c1 :: c2 :: rest2)
      | [c1] => if cont3 b c1 then [replChar] else replChar :: utf8Decode [c1]
      | [] => [replChar]
    else if 0xf0 ≤ b ∧ b ≤ 0xf4 then
      match rest with
      | c1 :: c2 :: c3 :: rest2 =>
        if cont4 b c1 then
          if isCont c2 then
            if isCont c3 then
              Char.ofNat ((b % 8) * 262144 + (c1 % 64) * 4096 + (c2 % 64) * 64 + c3 % 64) ::
                utf8Decode rest2
            else replChar :: utf8Decode (c3 :: rest2)
          else replChar :: utf8Decode (c2 :: c3 :: rest2)
        else replChar :: utf8Decode (c1 :: c2 :: c3 :: rest2)
      | [c1, c2] =>
        if cont4 b c1 then
          if isCont c2 then [replChar] else replChar :: utf8Decode [c2]
        else replChar :: utf8Decode [c1, c2]
      | [c1] => if cont4 b c1 then [replChar] else replChar :: utf8Decode [c1]
      | [] => [replChar]
    else replChar :: utf8Decode rest

/-- Standard UTF-8 encoding of one scalar value. -/
def utf8EncodeChar (c : Char) : List Nat :=
  let n := c.toNat
  if n ≤ 0x7f then [n]
  else if n ≤ 0x7ff then [0xc0 + n / 64, 0x80 + n % 64]
  else if n ≤ 0xffff then [0xe0 + n / 4096, 0x80 + (n / 64) % 64, 0x80 + n % 64]
  else [0xf0 + n / 262144, 0x80 + (n / 4096) % 64, 0x80 + (n / 64) % 64, 0x80 + n % 64]

/-- Standard UTF-8 encoding of a string. -/
def utf8Encode (s : List Char) : List Nat :=
  s.foldr (fun c acc => utf8EncodeChar c ++ acc) []

/-- A byte sequence is valid UTF-8 when decoding then encoding is the identity. -/
def validUtf8 (bs : List Nat) : Bool := utf8Encode (utf8Decode bs) == bs

/-- No complete line other than the last is a termination sentinel line. -/
def noEarlyStop : List (List Char) → Bool
  | [] => true
  | [_] => true
  | l :: l2 :: rest => !isStopLine l && noEarlyStop (l2 :: rest)

/-- Well-formed event stream (decoded text): the sentinel, if present among the
complete lines, is only the final complete line. -/
def wellFormedStream (s : List Char) : Bool := noEarlyStop (linesOf s)

/-- Well-formed event stream delivered as bytes. -/
def wellFormedBytes (bs : List Nat) : Bool := validUtf8 bs && wellFormedStream (utf8Decode bs)

/-- Run the handler on raw byte chunks: each chunk is decoded on its own, as
chunk.toString() does. -/
def runStreamBytes (cs : List (List Nat)) : List OutEvent :=
  runStream (cs.map utf8Decode)

/-!
Token Estimator and History Windower.
-/

/-- Model of estimateTokens: Math.ceil(text.length / 4). -/
def estimateTokens (text : List Char) : Nat := (text.length + 3) / 4

/-- Estimated cost of one message: estimateTokens(JSON.stringify(msg)). -/
def msgTokens (msg : Json) : Nat := estimateTokens (stringifyJson msg)

/-- The loop of limitMessagesByTokens: walk the history newest-first
(i from messages.length-1 down to 0), unshift while the running total stays
within budget, break at the first message that does not fit. -/
def limitAux (maxTokens : Nat) : List Json → Nat → List Json → List Json
  | [], _, kept => kept
  | msg :: older, totalTokens, kept =>
    let tokens := msgTokens msg
    if totalTokens + tokens ≤ maxTokens then
      limitAux maxTokens older (totalTokens + tokens) (msg :: kept)
    else kept

/-- Model of limitMessagesByTokens (the caller always passes 8000 as budget). -/
def limitMessagesByTokens (messages : List Json) (maxTokens : Nat) : List Json :=
  if messages.isEmpty then messages
  else limitAux maxTokens messages.reverse 0 []

/-- Token sum of a window. -/
def sumTokens (messages : List Json) : Nat := (messages.map msgTokens).sum


/-!
Concrete fixtures used by counterexamples and witnesses.
-/

/-- Check that no catalog pattern matches at the start of s. -/
def noLeadMatch (s : List Char) : Bool :=
  UNWANTED_PHRASES.all (fun p => (matchPattern p s).isNone)

/-- Example reply content from the specification. -/
def exChained : List Char := str "Sure, of course! Here" ++ [apos] ++ str "s the plan: ..."

/-- Expected whole-document normalization of exChained. -/
def exChainedOut : List Char := str "the plan: ..."

/-- Short user message fixture. -/
def exMsgShort : Json := .obj [(str "role", .str (str "user")), (str "content", .str (str "hi"))]

/-- Long user message fixture (the spec's tell me a long story example). -/
def exMsgLong : Json :=
  .obj [(str "role", .str (str "user")), (str "content", .str (str "tell me a long story"))]

/-- Streaming payload with one delta carrying only content. -/
def mkData (c : List Char) : Json :=
  .obj [(choicesKey, .arr [.obj [(deltaKey, .obj [(contentKey, .str c)])]])]

/-- Streaming payload whose delta carries content plus the reasoning field. -/
def mkDataR (c r : List Char) : Json :=
  .obj [(choicesKey, .arr [.obj [(deltaKey,
    .obj [(contentKey, .str c), (reasoningKey, .str r)])]])]

/-- Serialize a payload as one data line (no trailing newline). -/
def mkLine (j : Json) : List Char := dataMark ++ stringifyJson j

/-- Fifty-character content with no boilerplate lead-in. -/
def contentA : List Char := List.replicate 50 'A'

/-- Fifty-character content that starts with a catalog phrase. -/
def contentB : List Char := str "Sure, " ++ List.replicate 44 'B'

/-- Content of contentB after whole-document normalization. -/
def contentBStripped : List Char := List.replicate 44 'B'

/-- Delta content of an emitted event, when it is a string. -/
def eventDeltaContent : OutEvent → Option (List Char)
  | .event d =>
    match getDelta d with
    | some delta =>
      match getJsonField delta contentKey with
      | some (.str s) => some s
      | _ => none
    | none => none
  | _ => none

/-- Whether an emitted event still carries the reasoning side-channel field. -/
def hasReasoningField : OutEvent → Bool
  | .event d =>
    match getDelta d with
    | some delta => (getJsonField delta reasoningKey).isSome
    | none => false
  | _ => false

/-- Whether some line would trigger the sentinel branch. -/
def stopsIn (lines : List (List Char)) : Bool := lines.any isStopLine

/-- Malformed data line: the payload after the prefix is not JSON. -/
def exBadLine : List Char := str "data: notjson"

/-- Second malformed data line, used to observe that processing continues. -/
def exTailLine : List Char := str "data: also bad"

/-- Chunk holding only the termination sentinel line. -/
def exDoneChunk : List Char := str "data: [DONE]" ++ [nl]

/-- Chunk with one full content line, delivered after the sentinel chunk. -/
def exAfterChunk : List Char := mkLine (mkData contentA) ++ [nl]

/-- Chunk whose single payload carries both content and the reasoning field. -/
def exLeakChunk : List Char := mkLine (mkDataR contentA (str "secret")) ++ [nl]

/-- Chunk with two full-size content lines, the second starting with a catalog
phrase. -/
def exC2Chunk : List Char :=
  mkLine (mkData contentA) ++ [nl] ++ mkLine (mkData contentB) ++ [nl]

/-- Normalizer state with the accumulating condition false (the state the
passthrough branch requires). -/
def exPassState : NormState := ⟨false, List.replicate 100 'A'⟩

/-- Delta content of the first emitted event, used to separate two runs. -/
def firstEventContent (evs : List OutEvent) : Option (List Char) :=
  match evs with
  | e :: _ => eventDeltaContent e
  | [] => none

/-- Content with an accented character, as decoded from intact bytes. -/
def exContentGood : List Char :=
  List.replicate 30 'X' ++ [Char.ofNat 0xe9] ++ List.replicate 20 'Y'

/-- The same content as garbled by decoding each half of a split separately. -/
def exContentBad : List Char :=
  List.replicate 30 'X' ++ [replChar, replChar] ++ List.replicate 20 'Y'

/-- Byte stream of one well-formed event line whose content contains a
two-byte UTF-8 character (bytes 69 and 70 of the stream). -/
def exBytes : List Nat := utf8Encode (mkLine (mkData exContentGood) ++ [nl])

/-- The same bytes split in two chunks, cutting the two-byte character. -/
def exBytesSplit : List (List Nat) := [exBytes.take 70, exBytes.drop 70]

/-- A complete well-formed character stream: one content line, then the
sentinel line. -/
def exWitFull : List Char := mkLine (mkData contentA) ++ [nl] ++ exDoneChunk

/-- The stream delivered whole. -/
def exWitChunksA : List (List Char) := [exWitFull]

/-- The stream delivered split at an arbitrary character position. -/
def exWitChunksB : List (List Char) := [exWitFull.take 20, exWitFull.drop 20]

/-!
Properties. Helper lemmas first, then one theorem per claim (witnesses and
counterexamples alongside).
-/

theorem splitLines_append (a b : List Char) :
    splitLines (a ++ b) =
      ((splitLines a).1 ++ (splitLines ((splitLines a).2 ++ b)).1,
       (splitLines ((splitLines a).2 ++ b)).2) := by
  induction a with
  | nil => simp [splitLines]
  | cons c rest ih =>
    rcases hr : splitLines rest with ⟨L1, r1⟩
    rw [hr] at ih
    rcases hq : splitLines (r1 ++ b) with ⟨L2, r2⟩
    rw [hq] at ih
    by_cases hc : c = nl
    · subst hc
      simp [splitLines, ih, hr, hq]
    · cases L1 with
      | nil =>
        cases L2 with
        | nil => simp [splitLines, if_neg hc, ih, hr, hq]
        | cons m0 ms => simp [splitLines, if_neg hc, ih, hr, hq]
      | cons l0 ls =>
        simp [splitLines, if_neg hc, ih, hr, hq]

theorem splitLines_of_no_newline (s : List Char) (h : ∀ c ∈ s, c ≠ nl) :
    splitLines s = ([], s) := by
  induction s with
  | nil => simp [splitLines]
  | cons c rest ih =>
    have hc : c ≠ nl := h c (by simp)
    have hrest : splitLines rest = ([], rest) := ih (fun x hx => h x (by simp [hx]))
    simp [splitLines, if_neg hc, hrest]

theorem splitLines_snd_no_newline (s : List Char) : ∀ c ∈ (splitLines s).2, c ≠ nl := by
  induction s with
  | nil => simp [splitLines]
  | cons c rest ih =>
    by_cases hc : c = nl
    · subst hc; simpa [splitLines] using ih
    · rcases hr : splitLines rest with ⟨L1, r1⟩
      rw [hr] at ih
      cases L1 with
      | nil =>
        simp only [splitLines, if_neg hc, hr]
        intro x hx
        rcases List.mem_cons.mp hx with hx1 | hx1
        · simpa [hx1] using hc
        · exact ih x hx1
      | cons l0 ls =>
        simp only [splitLines, if_neg hc, hr]
        exact ih

theorem splitLines_fst_nil (s : List Char) (h : (splitLines s).1 = []) :
    ∀ c ∈ s, c ≠ nl := by
  induction s with
  | nil => simp
  | cons c rest ih =>
    by_cases hc : c = nl
    · subst hc; simp [splitLines] at h
    · rcases hr : splitLines rest with ⟨L1, r1⟩
      cases L1 with
      | nil =>
        intro x hx
        rcases List.mem_cons.mp hx with hx1 | hx1
        · simpa [hx1] using hc
        · exact ih (by simp [hr]) x hx1
      | cons l0 ls =>
        simp [splitLines, if_neg hc, hr] at h

theorem lookupField_insertField_self (fs : List (List Char × Json)) (k : List Char) (v : Json) :
    lookupField (insertField fs k v) k = some v := by
  induction fs with
  | nil => simp [insertField, lookupField]
  | cons kv rest ih =>
    by_cases hk : kv.1 = k
    · simp [insertField, lookupField, hk]
    · simp [insertField, lookupField, hk, ih]

theorem lookupField_removeField_self (fs : List (List Char × Json)) (k : List Char) :
    lookupField (removeField fs k) k = none := by
  induction fs with
  | nil => simp [removeField, lookupField]
  | cons kv rest ih =>
    by_cases hk : kv.1 = k
    · simp [removeField, hk, ih]
    · simp [removeField, lookupField, hk, ih]

theorem cleanLoopFuel_eq (fuel : Nat) :
    ∀ s : List Char, s.length < fuel → cleanLoopFuel fuel s = some (cleanLoopGo s) := by
  induction fuel with
  | zero => intro s h; omega
  | succ n ih =>
    intro s h
    rw [cleanLoopGo]
    by_cases hc : (cleanIter s).length ≠ s.length ∧ 0 < (cleanIter s).length
    · have hlt : (cleanIter s).length < s.length :=
        lt_of_le_of_ne (cleanIter_length_le s) hc.1
      simp only [cleanLoopFuel, if_pos hc, dif_pos hc]
      exact ih (cleanIter s) (by omega)
    · simp [cleanLoopFuel, if_neg hc, dif_neg hc]

theorem cleanResponse_eq_go (text : List Char) (h : text ≠ []) :
    cleanResponse text = cleanLoopGo text := by
  unfold cleanResponse
  rw [if_neg h, cleanLoopFuel_eq (text.length + 1) text (by omega)]
  rfl


theorem limitAux_budget (maxTokens : Nat) :
    ∀ (l : List Json) (total : Nat) (kept : List Json), total ≤ maxTokens →
      sumTokens (limitAux maxTokens l total kept) + total ≤ maxTokens + sumTokens kept := by
  intro l
  induction l with
  | nil => intro total kept h; simp only [limitAux]; omega
  | cons m older ih =>
    intro total kept h
    by_cases hc : total + msgTokens m ≤ maxTokens
    · have hrec := ih (total + msgTokens m) (m :: kept) hc
      simp only [limitAux, if_pos hc]
      simp only [sumTokens, List.map_cons, List.sum_cons] at hrec ⊢
      omega
    · simp only [limitAux, if_neg hc]
      omega

theorem limitAux_take (maxTokens : Nat) :
    ∀ (l : List Json) (total : Nat) (kept : List Json),
      ∃ n, limitAux maxTokens l total kept = (l.take n).reverse ++ kept := by
  intro l
  induction l with
  | nil => intro total kept; exact ⟨0, by simp [limitAux]⟩
  | cons m older ih =>
    intro total kept
    by_cases hc : total + msgTokens m ≤ maxTokens
    · obtain ⟨n, hn⟩ := ih (total + msgTokens m) (m :: kept)
      refine ⟨n + 1, ?_⟩
      simp only [limitAux, if_pos hc, hn, List.take_succ_cons, List.reverse_cons,
        List.append_assoc, List.singleton_append]
    · exact ⟨0, by simp [limitAux, if_neg hc]⟩

/-- C4: if the most recent message alone costs more than the budget, the
windower returns the empty list, whatever earlier messages exist. -/
theorem windower_cliff (history : List Json) (m : Json) (budget : Nat)
    (h : budget < msgTokens m) :
    limitMessagesByTokens (history ++ [m]) budget = [] := by
  unfold limitMessagesByTokens
  rw [if_neg (by simp)]
  rw [List.reverse_append, List.reverse_singleton, List.singleton_append]
  simp only [limitAux, Nat.zero_add, if_neg (by omega : ¬ msgTokens m ≤ budget)]

/-- Witness for C4: the spec's example history with a budget below the cost of
the last message alone. -/
theorem windower_cliff_witness :
    limitMessagesByTokens [exMsgShort, exMsgLong] 5 = [] :=
  windower_cliff [exMsgShort] exMsgLong 5 (by decide)

/-- C5: the token sum of the windower's output never exceeds the budget. -/
theorem windower_sum_le_budget (messages : List Json) (maxTokens : Nat) :
    sumTokens (limitMessagesByTokens messages maxTokens) ≤ maxTokens := by
  unfold limitMessagesByTokens
  by_cases h : messages.isEmpty
  · rw [if_pos h]
    rw [List.isEmpty_iff.mp h]
    simp [sumTokens]
  · rw [if_neg h]
    have h5 := limitAux_budget maxTokens messages.reverse 0 [] (Nat.zero_le _)
    simp only [sumTokens, List.map_nil, List.sum_nil] at h5 ⊢
    omega

/-- C6: the windower's output is a contiguous suffix of the input history, in
original order, with every kept message unchanged. -/
theorem windower_suffix (messages : List Json) (maxTokens : Nat) :
    limitMessagesByTokens messages maxTokens <:+ messages := by
  unfold limitMessagesByTokens
  by_cases h : messages.isEmpty
  · rw [if_pos h]
  · rw [if_neg h]
    obtain ⟨n, hn⟩ := limitAux_take maxTokens messages.reverse 0 []
    rw [hn, List.append_nil]
    refine List.reverse_prefix.mp ?_
    simpa using List.take_prefix n messages.reverse

theorem dropWhile_eq_of_length {α : Type} (q : α → Bool) (l : List α)
    (h : (l.dropWhile q).length = l.length) : l.dropWhile q = l := by
  cases l with
  | nil => simp
  | cons c cs =>
    rw [List.dropWhile_cons] at h ⊢
    by_cases hq : q c = true
    · rw [if_pos hq] at h ⊢
      exfalso
      have := length_dropWhile_le q cs
      simp only [List.length_cons] at h
      omega
    · rw [if_neg hq]

theorem replacePattern_eq_of_length (p : Pattern) (s : List Char)
    (h : (replacePattern p s).length = s.length) :
    replacePattern p s = s ∧ matchPattern p s = none := by
  rcases hm : matchPattern p s with _ | r
  · constructor
    · unfold replacePattern
      rw [hm]
      rfl
    · rfl
  · exfalso
    have hlt := matchPattern_length_lt p s r hm
    unfold replacePattern at h
    rw [hm] at h
    simp at h
    omega

theorem applyList_eq_of_length :
    ∀ (ps : List Pattern) (s : List Char), (applyList ps s).length = s.length →
      applyList ps s = s ∧ ∀ p ∈ ps, matchPattern p s = none := by
  intro ps
  induction ps with
  | nil => intro s h; simp [applyList]
  | cons p rest ih =>
    intro s h
    have happ : applyList (p :: rest) s = applyList rest (replacePattern p s) := by
      simp [applyList]
    rw [happ] at h
    have hle1 := applyList_length_le rest (replacePattern p s)
    have hle2 := replacePattern_length_le p s
    have hrp : (replacePattern p s).length = s.length := by omega
    obtain ⟨heq, hnone⟩ := replacePattern_eq_of_length p s hrp
    rw [heq] at h
    obtain ⟨h2, h3⟩ := ih s h
    constructor
    · rw [happ, heq, h2]
    · intro q hq
      rcases List.mem_cons.mp hq with hq1 | hq2
      · rw [hq1]; exact hnone
      · exact h3 q hq2

theorem cleanIter_eq_of_length (s : List Char) (h : (cleanIter s).length = s.length) :
    cleanIter s = s ∧ ∀ p ∈ UNWANTED_PHRASES, matchPattern p s = none := by
  have h1 := applyList_length_le UNWANTED_PHRASES s
  have h2 := length_dropWhile_le jsSpace (applyList UNWANTED_PHRASES s)
  unfold cleanIter trimStart at h
  have h3 : (applyList UNWANTED_PHRASES s).length = s.length := by omega
  obtain ⟨ha, hnone⟩ := applyList_eq_of_length UNWANTED_PHRASES s h3
  rw [ha] at h
  refine ⟨?_, hnone⟩
  unfold cleanIter trimStart
  rw [ha]
  exact dropWhile_eq_of_length jsSpace s h

theorem cleanLoopGo_fixpoint :
    ∀ (n : Nat) (s : List Char), s.length ≤ n →
      cleanLoopGo s = [] ∨ ∀ p ∈ UNWANTED_PHRASES, matchPattern p (cleanLoopGo s) = none := by
  intro n
  induction n with
  | zero =>
    intro s hs
    have : s = [] := List.length_eq_zero.mp (by omega)
    subst this
    rw [cleanLoopGo]
    by_cases hc : (cleanIter []).length ≠ ([] : List Char).length ∧ 0 < (cleanIter []).length
    · exact absurd hc (by decide)
    · rw [dif_neg hc]
      right
      intro p hp
      have h0 : (cleanIter []).length = 0 := by
        have := cleanIter_length_le ([] : List Char)
        simp at this
        simp [this]
      obtain ⟨heq, hnone⟩ := cleanIter_eq_of_length [] (by simp [h0])
      rw [heq]
      exact hnone p hp
  | succ n ih =>
    intro s hs
    rw [cleanLoopGo]
    by_cases hc : (cleanIter s).length ≠ s.length ∧ 0 < (cleanIter s).length
    · rw [dif_pos hc]
      have hlt : (cleanIter s).length < s.length :=
        lt_of_le_of_ne (cleanIter_length_le s) hc.1
      exact ih (cleanIter s) (by omega)
    · rw [dif_neg hc]
      by_cases he : (cleanIter s).length = s.length
      · obtain ⟨heq, hnone⟩ := cleanIter_eq_of_length s he
        right
        rw [heq]
        exact hnone
      · left
        rw [not_and_or] at hc
        rcases hc with hc1 | hc2
        · exact absurd he (by simpa using hc1)
        · exact List.length_eq_zero.mp (by omega)

/-- C7: whole-document normalization reaches a state where no catalog pattern
matches at the start (or the text is exhausted), and the spec's chained example
strips both lead-ins. -/
theorem cleanResponse_strips_chained :
    (∀ text : List Char,
       cleanResponse text = [] ∨ noLeadMatch (cleanResponse text) = true) ∧
    cleanResponse exChained = exChainedOut := by
  constructor
  · intro text
    by_cases ht : text = []
    · left
      rw [ht]
      rfl
    · rw [cleanResponse_eq_go text ht]
      rcases cleanLoopGo_fixpoint text.length text le_rfl with h | h
      · left; exact h
      · right
        unfold noLeadMatch
        rw [List.all_eq_true]
        intro p hp
        rw [Option.isNone_iff_eq_none]
        exact h p hp
  · rfl

/-- C10: the do-while loop of cleanResponse terminates: every iteration either
strictly shrinks the working string or is the final one, and the fuelled loop
finishes within length + 1 iterations, agreeing with the total model. -/
theorem cleanResponse_total (text : List Char) :
    ((cleanIter text).length < text.length ∨ cleanLoopGo text = cleanIter text) ∧
    cleanLoopFuel (text.length + 1) text = some (cleanLoopGo text) ∧
    cleanResponse text = (if text = [] then text else cleanLoopGo text) := by
  refine ⟨?_, cleanLoopFuel_eq (text.length + 1) text (by omega), ?_⟩
  · by_cases hc : (cleanIter text).length ≠ text.length ∧ 0 < (cleanIter text).length
    · left
      exact lt_of_le_of_ne (cleanIter_length_le text) hc.1
    · right
      rw [cleanLoopGo, dif_neg hc]
  · by_cases ht : text = []
    · rw [if_pos ht]
      unfold cleanResponse
      rw [if_pos ht]
    · rw [if_neg ht]
      exact cleanResponse_eq_go text ht

theorem getJsonField_obj_exists (j : Json) (k : List Char) (v : Json)
    (h : getJsonField j k = some v) : ∃ fs, j = .obj fs ∧ lookupField fs k = some v := by
  cases j with
  | obj fs => exact ⟨fs, rfl, h⟩
  | null => simp [getJsonField] at h
  | bool b => simp [getJsonField] at h
  | num lex => simp [getJsonField] at h
  | str s => simp [getJsonField] at h
  | arr l => simp [getJsonField] at h

theorem getDelta_updateDelta (data delta : Json) (f : Json → Json)
    (h : getDelta data = some delta) : getDelta (updateDelta data f) = some (f delta) := by
  unfold getDelta at h
  rcases h1 : getJsonField data choicesKey with _ | choices
  · rw [h1] at h
    simp at h
  · rw [h1] at h
    cases choices with
    | arr items =>
      cases items with
      | nil => simp at h
      | cons c0 cs =>
        simp only at h
        obtain ⟨fields, rfl, hl⟩ := getJsonField_obj_exists data choicesKey _ h1
        obtain ⟨cf, rfl, hcf⟩ := getJsonField_obj_exists c0 deltaKey delta h
        unfold updateDelta
        rw [h1]
        simp only [h]
        unfold getDelta
        simp only [setField, getJsonField, lookupField_insertField_self]
    | null => simp at h
    | bool b => simp at h
    | num lex => simp at h
    | str s => simp at h
    | obj l => simp at h

/-- C9: a data line that is not the sentinel and whose payload fails to parse is
forwarded verbatim as a raw event, and the remaining lines are still processed
from the unchanged state. -/
theorem reframer_forwards_malformed (n : NormState) (line : List Char) (ls : List (List Char))
    (h1 : dataMark.isPrefixOf line = true) (h2 : containsSub doneMark line = false)
    (h3 : jsonParse (line.drop 6) = none) :
    processLines n (line :: ls) =
      ((processLines n ls).1, OutEvent.raw line :: (processLines n ls).2) := by
  simp [processLines, processLine, h1, h2, h3]

/-- Witness for C9: a concrete malformed line followed by another line; the raw
line is forwarded and the next line still gets processed. -/
theorem reframer_forwards_malformed_witness :
    processLines ⟨true, []⟩ [exBadLine, exTailLine] =
      ((processLines ⟨true, []⟩ [exTailLine]).1,
        OutEvent.raw exBadLine :: (processLines ⟨true, []⟩ [exTailLine]).2) :=
  reframer_forwards_malformed ⟨true, []⟩ exBadLine [exTailLine]
    (by decide) (by decide) (by rfl)

set_option maxRecDepth 20000 in
/-- Counterexample to C8 as stated: after the sentinel arrives (and the terminal
event is emitted), a content line arriving in a later chunk is still processed
and emitted, because the return statement only exits the current data callback. -/
theorem reframer_processes_after_done :
    runStream [exDoneChunk, exAfterChunk] =
      [OutEvent.done, OutEvent.event (mkData contentA)] := by
  rfl

/-- C8 amended: within one chunk, the sentinel line emits exactly the terminal
event and the remaining lines of that chunk are not processed (state unchanged,
nothing further emitted), however many lines follow. -/
theorem reframer_stops_within_chunk (n : NormState) (line : List Char) (ls : List (List Char))
    (h : isStopLine line = true) :
    processLines n (line :: ls) = (n, [OutEvent.done]) := by
  unfold isStopLine at h
  rw [Bool.and_eq_true] at h
  simp [processLines, h.1, h.2]

/-- Witness for the amended C8: a concrete sentinel line followed by a content
line in the same chunk; only the terminal event comes out. -/
theorem reframer_stops_within_chunk_witness :
    processLines ⟨true, []⟩ [str "data: [DONE]", mkLine (mkData contentA)] =
      (⟨true, []⟩, [OutEvent.done]) :=
  reframer_stops_within_chunk ⟨true, []⟩ (str "data: [DONE]")
    [mkLine (mkData contentA)] (by decide)

set_option maxRecDepth 20000 in
/-- Counterexample to C3 as stated: a payload whose delta carries both content
and reasoning_content, processed in the accumulating phase (SHOW_REASONING is
false), is emitted with the reasoning field still present. -/
theorem reasoning_leaks_in_accumulating_phase :
    (runStream [exLeakChunk]).any hasReasoningField = true := by
  rfl

/-- C3 amended: the reasoning field is stripped only by the passthrough branch:
whenever the accumulating condition is false (isFirstChunk false and at least
100 accumulated characters), no event emitted for the line carries the
reasoning field. -/
theorem reasoning_stripped_in_passthrough (n : NormState) (line : List Char)
    (h1 : n.isFirstChunk = false) (h2 : 100 ≤ n.accumulatedContent.length) :
    ((processLine n line).2.all (fun e => !hasReasoningField e)) = true := by
  have hcond : ¬ (n.isFirstChunk = true ∨ n.accumulatedContent.length < 100) := by
    rw [h1]
    simp only [Bool.false_eq_true, false_or, not_lt]
    omega
  rcases hp : jsonParse (line.drop 6) with _ | data
  · simp [processLine, hp, hasReasoningField]
  · rcases hd : getDelta data with _ | delta
    · simp [processLine, hp, hd]
    · rcases hc : getJsonField delta contentKey with _ | cj
      · simp [processLine, hp, hd, hc]
      · cases htr : jsTruthy cj
        · simp [processLine, hp, hd, hc, htr]
        · have hdelta : ∃ cf, delta = .obj cf := by
            cases delta with
            | obj cf => exact ⟨cf, rfl⟩
            | null => simp [getJsonField] at hc
            | bool b => simp [getJsonField] at hc
            | num lex => simp [getJsonField] at hc
            | str s => simp [getJsonField] at hc
            | arr l => simp [getJsonField] at hc
          obtain ⟨cf, rfl⟩ := hdelta
          have hupd := getDelta_updateDelta data (.obj cf)
            (fun d => if SHOW_REASONING = true then d else delField d reasoningKey) hd
          have hpl : processLine n line =
              (n, [OutEvent.event (updateDelta data
                (fun d => if SHOW_REASONING = true then d else delField d reasoningKey))]) := by
            simp [processLine, hp, hd, hc, htr, hcond]
          rw [hpl]
          simp only [List.all_cons, List.all_nil, Bool.and_true]
          simp only [hasReasoningField, hupd]
          simp [SHOW_REASONING, delField, getJsonField, lookupField_removeField_self]

/-- Witness for the amended C3: a concrete passthrough-phase state and a payload
with both content and reasoning; the emitted event carries no reasoning field. -/
theorem reasoning_stripped_in_passthrough_witness :
    ((processLine exPassState
        (mkLine (mkDataR (str "hello world") (str "secret")))).2.all
      (fun e => !hasReasoningField e)) = true :=
  reasoning_stripped_in_passthrough exPassState
    (mkLine (mkDataR (str "hello world") (str "secret"))) (by rfl) (by decide)

set_option maxRecDepth 20000 in
/-- C2 is a code bug: the accumulating branch resets the buffer on every flush,
so its guard accumulatedContent.length below 100 can never fail and the
passthrough branch is unreachable. Concretely, after the first flush the next
full-size fragment is cleaned again (its catalog lead-in is stripped) instead
of being passed through unmodified. -/
theorem passthrough_unreachable_fragment_cleaned :
    runStream [exC2Chunk] =
      [OutEvent.event (mkData contentA), OutEvent.event (mkData contentBStripped)] ∧
    contentBStripped ≠ contentB := by
  exact ⟨rfl, by decide⟩

theorem stopsIn_cons (l : List Char) (ls : List (List Char)) :
    stopsIn (l :: ls) = (isStopLine l || stopsIn ls) := by
  simp [stopsIn]

theorem processLines_append_no_stop (L1 : List (List Char)) :
    ∀ (L2 : List (List Char)) (n : NormState), stopsIn L1 = false →
      processLines n (L1 ++ L2) =
        ((processLines (processLines n L1).1 L2).1,
         (processLines n L1).2 ++ (processLines (processLines n L1).1 L2).2) := by
  induction L1 with
  | nil => intro L2 n _; simp [processLines]
  | cons l ls ih =>
    intro L2 n h
    rw [stopsIn_cons, Bool.or_eq_false_iff] at h
    cases hpre : dataMark.isPrefixOf l
    · simp only [List.cons_append, processLines, hpre, Bool.false_eq_true, if_false]
      exact ih L2 n h.2
    · have hdone : containsSub doneMark l = false := by
        have h1 := h.1
        unfold isStopLine at h1
        rw [hpre] at h1
        simpa using h1
      simp only [List.cons_append, processLines, hpre, if_true, hdone,
        Bool.false_eq_true, if_false, List.append_eq]
      rw [ih L2 (processLine n l).1 h.2]
      simp [List.append_assoc]

theorem processLines_append_stop (L1 : List (List Char)) :
    ∀ (L2 : List (List Char)) (n : NormState), stopsIn L1 = true →
      processLines n (L1 ++ L2) = processLines n L1 := by
  induction L1 with
  | nil => intro L2 n h; simp [stopsIn] at h
  | cons l ls ih =>
    intro L2 n h
    rw [stopsIn_cons] at h
    cases hstop : isStopLine l
    · rw [hstop, Bool.false_or] at h
      cases hpre : dataMark.isPrefixOf l
      · simp only [List.cons_append, processLines, hpre, Bool.false_eq_true, if_false]
        exact ih L2 n h
      · have hdone : containsSub doneMark l = false := by
          unfold isStopLine at hstop
          rw [hpre] at hstop
          simpa using hstop
        simp only [List.cons_append, processLines, hpre, if_true, hdone,
          Bool.false_eq_true, if_false, List.append_eq]
        rw [ih L2 (processLine n l).1 h]
    · rw [isStopLine, Bool.and_eq_true] at hstop
      simp [List.cons_append, processLines, hstop.1, hstop.2]

theorem noEarlyStop_cons (l : List Char) (rest : List (List Char))
    (h : noEarlyStop (l :: rest) = true) : noEarlyStop rest = true := by
  cases rest with
  | nil => rfl
  | cons x xs =>
    unfold noEarlyStop at h
    rw [Bool.and_eq_true] at h
    exact h.2

theorem noEarlyStop_append_right (L1 : List (List Char)) :
    ∀ L2 : List (List Char), noEarlyStop (L1 ++ L2) = true → noEarlyStop L2 = true := by
  induction L1 with
  | nil => intro L2 h; exact h
  | cons l ls ih =>
    intro L2 h
    exact ih L2 (noEarlyStop_cons l (ls ++ L2) h)

theorem noEarlyStop_stop_nil (L1 : List (List Char)) :
    ∀ L2 : List (List Char), noEarlyStop (L1 ++ L2) = true → stopsIn L1 = true →
      L2 = [] := by
  induction L1 with
  | nil => intro L2 _ hs; simp [stopsIn] at hs
  | cons l ls ih =>
    intro L2 h hs
    rcases hrest : ls ++ L2 with _ | ⟨x, xs⟩
    · exact (List.append_eq_nil.mp hrest).2
    · rw [stopsIn_cons] at hs
      have hne : noEarlyStop (l :: (ls ++ L2)) = true := h
      rw [hrest] at hne
      unfold noEarlyStop at hne
      rw [Bool.and_eq_true] at hne
      have hnl : isStopLine l = false := by
        have := hne.1
        rwa [Bool.not_eq_true'] at this
      rw [hnl, Bool.false_or] at hs
      exact ih L2 (by rw [hrest]; exact hne.2) hs

theorem runChunks_no_lines :
    ∀ (cs : List (List Char)) (st : StreamState),
      (∀ c ∈ st.buffer ++ cs.flatten, c ≠ nl) →
      runChunks st cs = (⟨st.buffer ++ cs.flatten, st.norm⟩, []) := by
  intro cs
  induction cs with
  | nil =>
    intro st _
    rcases st with ⟨buf, nrm⟩
    simp [runChunks]
  | cons c cs ih =>
    intro st h
    have hsub : ∀ x ∈ st.buffer ++ c, x ≠ nl := by
      intro x hx
      refine h x ?_
      simp only [List.flatten_cons, ← List.append_assoc]
      exact List.mem_append_left _ hx
    have hsplit : splitLines (st.buffer ++ c) = ([], st.buffer ++ c) :=
      splitLines_of_no_newline _ hsub
    have hstep : processChunk st c = (⟨st.buffer ++ c, st.norm⟩, []) := by
      simp [processChunk, hsplit, processLines]
    have hrest := ih ⟨st.buffer ++ c, st.norm⟩ (by
      intro x hx
      refine h x ?_
      simpa [List.flatten_cons, List.append_assoc] using hx)
    simp only [runChunks, hstep, hrest]
    simp [List.flatten_cons, List.append_assoc]

theorem runChunks_eq_single :
    ∀ (cs : List (List Char)) (st : StreamState),
      (∀ c ∈ st.buffer, c ≠ nl) →
      noEarlyStop (splitLines (st.buffer ++ cs.flatten)).1 = true →
      runChunks st cs = processChunk st cs.flatten := by
  intro cs
  induction cs with
  | nil =>
    intro st hb _
    rcases st with ⟨buf, nrm⟩
    have hsplit : splitLines buf = ([], buf) := splitLines_of_no_newline _ hb
    simp [runChunks, processChunk, hsplit, processLines]
  | cons c cs ih =>
    intro st hb hwf
    rcases hA : splitLines (st.buffer ++ c) with ⟨L1, r1⟩
    rcases hB : splitLines (r1 ++ cs.flatten) with ⟨L2, r2⟩
    have hsplit : splitLines (st.buffer ++ (c :: cs).flatten) = (L1 ++ L2, r2) := by
      rw [List.flatten_cons, ← List.append_assoc, splitLines_append, hA, hB]
    have hr1 : ∀ x ∈ r1, x ≠ nl := by
      intro x hx
      exact splitLines_snd_no_newline (st.buffer ++ c) x (by rw [hA]; exact hx)
    rw [hsplit] at hwf
    cases hstop : stopsIn L1
    · have hcomp := processLines_append_no_stop L1 L2 st.norm hstop
      have hrec := ih ⟨r1, (processLines st.norm L1).1⟩ hr1 (by
        show noEarlyStop (splitLines (r1 ++ cs.flatten)).1 = true
        rw [hB]
        exact noEarlyStop_append_right L1 L2 hwf)
      simp only [runChunks, processChunk, hA, hsplit, hcomp, hrec, hB]
    · have hL2 : L2 = [] := noEarlyStop_stop_nil L1 L2 hwf hstop
      have hnoNl : ∀ x ∈ r1 ++ cs.flatten, x ≠ nl := by
        have hfst : (splitLines (r1 ++ cs.flatten)).1 = [] := by rw [hB, hL2]
        exact splitLines_fst_nil _ hfst
      have hrest := runChunks_no_lines cs ⟨r1, (processLines st.norm L1).1⟩ hnoNl
      have hr2 : r2 = r1 ++ cs.flatten := by
        have heq := splitLines_of_no_newline _ hnoNl
        rw [hB] at heq
        exact congrArg Prod.snd heq
      have hcomp := processLines_append_stop L1 L2 st.norm hstop
      simp only [runChunks, processChunk, hA, hsplit, hcomp, hrest, hr2, List.append_nil]

theorem runStream_eq_single (cs : List (List Char))
    (h : wellFormedStream cs.flatten = true) :
    runStream cs = runStream [cs.flatten] := by
  unfold runStream
  have h1 := runChunks_eq_single cs initState (by simp [initState]) (by
    show noEarlyStop (splitLines (initState.buffer ++ cs.flatten)).1 = true
    unfold wellFormedStream linesOf at h
    simpa [initState] using h)
  have h2 : runChunks initState [cs.flatten] = processChunk initState cs.flatten := by
    rcases hp : processChunk initState cs.flatten with ⟨st1, o1⟩
    simp [runChunks, hp]
  rw [h1, h2]

/-- C1 amended: chunk-boundary invariance holds at the character level — for
any two chunkings of the same decoded character stream (equivalently, byte
splits that cut only at UTF-8 codepoint boundaries), if the stream is
well-formed (the sentinel is at most the final complete line) the emitted
events are identical. -/
theorem stream_chunk_invariance (cs ds : List (List Char))
    (heq : cs.flatten = ds.flatten) (hwf : wellFormedStream cs.flatten = true) :
    runStream cs = runStream ds := by
  rw [runStream_eq_single cs hwf, runStream_eq_single ds (heq ▸ hwf), heq]

/-- Witness for the amended C1: one concrete stream delivered whole and split
at an arbitrary character boundary produces the same events. -/
theorem stream_chunk_invariance_witness :
    runStream exWitChunksA = runStream exWitChunksB :=
  stream_chunk_invariance exWitChunksA exWitChunksB
    (by simp [exWitChunksA, exWitChunksB]) (by decide)

set_option maxRecDepth 40000 in
/-- Counterexample to C1 as stated: the same well-formed byte stream split at a
byte boundary inside a UTF-8 character yields different emitted events, because
each chunk is decoded on its own by chunk.toString() and the cut character
becomes two replacement characters. -/
theorem stream_bytes_chunk_dependent :
    ([exBytes] : List (List Nat)).flatten = exBytesSplit.flatten ∧
    wellFormedBytes exBytes = true ∧
    runStreamBytes [exBytes] ≠ runStreamBytes exBytesSplit := by
  refine ⟨by simp [exBytesSplit], by rfl, fun hcontra => ?_⟩
  have hproj := congrArg firstEventContent hcontra
  rw [show firstEventContent (runStreamBytes [exBytes]) = some exContentGood from rfl,
      show firstEventContent (runStreamBytes exBytesSplit) = some exContentBad from rfl]
    at hproj
  exact absurd (Option.some.inj hproj) (by decide)

end NimProxy
